import Mathlib

/-!
Verification of the asset-provisioning script `setup.py`.

The script resolves a project root from its own location, removes any stale
temporary clone directory, clones a remote repository into it, and then copies
four named sub-folders of the clone into fixed local destination directories.

The filesystem is shallowly embedded: a path is a list of name components,
and a filesystem state records, for every path, an optional file content and
a directory flag.  The stateful operations of the script (`shutil.rmtree`,
`Path.mkdir(parents=True, exist_ok=True)`, `shutil.copytree(dirs_exist_ok=True)`,
the clone performed by `huggingface_hub.Repository`) are embedded as explicit
state transformers, and fallible steps return `Except` carrying both the error
and the filesystem state at the moment of the abort.
-/

namespace Setup

/-- A filesystem path, as a list of name components. -/
abbrev Path := List String

/-- A filesystem state: each path optionally holds a file content (a string of
bytes), and each path has a directory flag. -/
structure FS where
  files : Path → Option String
  dirs : Path → Bool

/-- Strips `p` from the front of `q`: returns `some r` exactly when `q = p ++ r`. -/
def stripPre : Path → Path → Option Path
  | [], q => some q
  | _ :: _, [] => none
  | a :: p, b :: q => if a = b then stripPre p q else none

/-- Boolean test that `p` is an ancestor of `q` or equal to it. -/
def isAnc (p q : Path) : Bool := (stripPre p q).isSome

/-- Whether the path exists at all (as a file or as a directory): `Path.exists`. -/
def pexists (fs : FS) (p : Path) : Bool := fs.dirs p || (fs.files p).isSome

/-- Whether the path is an existing directory: `Path.is_dir`. -/
def isDir (fs : FS) (p : Path) : Bool := fs.dirs p

/-- Recursive removal of the tree rooted at `p`: `shutil.rmtree` (line 12),
assuming `p` is a directory.  Every file and directory at or below `p` is gone. -/
def rmtree (fs : FS) (p : Path) : FS :=
  { files := fun q => if (stripPre p q).isSome then none else fs.files q,
    dirs := fun q => if (stripPre p q).isSome then false else fs.dirs q }

/-- The error outcomes of the run.  `missingSource` is the spec's
`MissingSourceError` (the `FileNotFoundError` raised at line 44),
`fetchError` is the spec's `FetchError`, and `notADirectory` is the
uncaught error `shutil.rmtree` raises when applied to a non-directory. -/
inductive Err where
  | fetchError : Err
  | missingSource : Path → Err
  | notADirectory : Path → Err
deriving DecidableEq

/-- `shutil.rmtree` as a fallible step: on a non-directory it raises
(`NotADirectoryError`), leaving the state untouched. -/
def rmtreeE (fs : FS) (p : Path) : Except (Err × FS) FS :=
  if isDir fs p = true then .ok (rmtree fs p) else .error (.notADirectory p, fs)

/-- `dest.mkdir(parents=True, exist_ok=True)` (line 47): creates `d` and every
ancestor of `d` as a directory; files are untouched. -/
def mkdir_parents (fs : FS) (d : Path) : FS :=
  { files := fs.files,
    dirs := fun q => fs.dirs q || isAnc q d }

/-- `shutil.copytree(src, dest, dirs_exist_ok=True)` (line 48): every file of
the tree rooted at `src` is written to the corresponding path under `dest`,
overwriting what was there; every directory below `src` becomes a directory
below `dest`; paths of `dest` with no counterpart below `src` are untouched. -/
def copytree (fs : FS) (src dest : Path) : FS :=
  { files := fun q =>
      match stripPre dest q with
      | some rel =>
        match fs.files (src ++ rel) with
        | some c => some c
        | none => fs.files q
      | none => fs.files q,
    dirs := fun q =>
      match stripPre dest q with
      | some rel => fs.dirs q || fs.dirs (src ++ rel)
      | none => fs.dirs q }

/-- Modelled from the spec: the clone effect of `huggingface_hub.Repository`
(lines 13-17), whose implementation is external library code.  The remote
repository's working copy (given as a relative filesystem `r`) is written
below `tmp`; the clone creates the directory `tmp` itself and writes every
remote file and directory under it. -/
def cloneInto (fs : FS) (tmp : Path) (r : FS) : FS :=
  { files := fun q =>
      match stripPre tmp q with
      | some rel =>
        match r.files rel with
        | some c => some c
        | none => fs.files q
      | none => fs.files q,
    dirs := fun q =>
      match stripPre tmp q with
      | some [] => true
      | some rel => fs.dirs q || r.dirs rel
      | none => fs.dirs q }

/-- `Path(__file__).parent`: drop the last path component (the root is its own
parent, as in `pathlib`). -/
def parent (p : Path) : Path := if p.length ≤ 1 then p else p.dropLast

/-- Whether a path is absolute: its first component is the empty anchor, as in
the component decomposition of `/a/b`. -/
def isAbs (p : Path) : Bool := decide (p.head? = some "")

/-- `project_root = Path(__file__).parent` (line 7). -/
def project_root (scriptFile : Path) : Path := parent scriptFile

/-- `tmp_repo = project_root / "tmp_hf_repo"` (line 8). -/
def tmp_repo (root : Path) : Path := root ++ ["tmp_hf_repo"]

/-- The static mapping of remote sub-folders to `(local_base, subdir_name)`
destination pairs (lines 21-38), in insertion order. -/
def tasks (root : Path) : List (String × List (Path × String)) :=
  [ ("data_vocab",
      [ (root ++ ["Evaluation", "try1"], "data"),
        (root ++ ["ML", "try1"], "data") ]),
    ("models_vocab",
      [ (root ++ ["Evaluation", "try1"], "models"),
        (root ++ ["ML", "try1"], "models") ]),
    ("data _enronsent",
      [ (root ++ ["ML", "try2"], "data"),
        (root ++ ["Evaluation", "try2"], "data") ]),
    ("models_enronsent",
      [ (root ++ ["ML", "try2"], "models"),
        (root ++ ["Evaluation", "try2"], "models") ]) ]

/-- The destination directory `dest = base_dir / sub` of one pair (line 46). -/
def destOf (bs : Path × String) : Path := bs.1 ++ [bs.2]

/-- All destination directories of a task list, in processing order. -/
def allDests : List (String × List (Path × String)) → List Path
  | [] => []
  | e :: rest => e.2.map destOf ++ allDests rest

/-- The inner loop of one mapping entry (lines 45-48): for each destination
pair in list order, create the destination directory (with parents) and
recursively merge-copy the source tree into it. -/
def copyEntry (src : Path) : FS → List (Path × String) → FS
  | fs, [] => fs
  | fs, (base_dir, sub) :: rest =>
    copyEntry src
      (copytree (mkdir_parents fs (base_dir ++ [sub])) src (base_dir ++ [sub])) rest

/-- The copy loop (lines 41-48): iterate the mapping entries in order; for each,
check that the source folder inside the clone is an existing directory and
otherwise abort with `missingSource`, leaving the state as it was. -/
def copyLoop (root : Path) : FS → List (String × List (Path × String)) → Except (Err × FS) FS
  | fs, [] => .ok fs
  | fs, (remote_folder, destinations) :: rest =>
    if isDir fs (tmp_repo root ++ [remote_folder]) = true then
      copyLoop root (copyEntry (tmp_repo root ++ [remote_folder]) fs destinations) rest
    else
      .error (.missingSource (tmp_repo root ++ [remote_folder]), fs)

/-- The fetch step (lines 11-17): if the temporary clone directory exists it is
removed recursively (failing on a non-directory), then the remote repository
`r` is cloned into it; a network or authentication failure is `fetchError`. -/
def fetchStep (root : Path) (fetchOk : Bool) (r : FS) (fs : FS) : Except (Err × FS) FS :=
  match (if pexists fs (tmp_repo root) = true then rmtreeE fs (tmp_repo root) else .ok fs) with
  | .error e => .error e
  | .ok fs1 =>
    if fetchOk then .ok (cloneInto fs1 (tmp_repo root) r) else .error (.fetchError, fs1)

/-- The whole script: fetch, then the copy loop over the static table. -/
def run (root : Path) (fetchOk : Bool) (r : FS) (fs : FS) : Except (Err × FS) FS :=
  match fetchStep root fetchOk r fs with
  | .error e => .error e
  | .ok fs1 => copyLoop root fs1 (tasks root)

/-- The filesystem state an outcome ends in (final state on success, the state
at the moment of the abort on failure). -/
def runState : Except (Err × FS) FS → FS
  | .ok fs => fs
  | .error (_, fs) => fs

/-- The error of an outcome, if any. -/
def runErr : Except (Err × FS) FS → Option Err
  | .ok _ => none
  | .error (e, _) => some e

/-- The eight destination directories of the table, as component triples below
the project root. -/
def destTriples : List Path :=
  [ ["Evaluation", "try1", "data"], ["ML", "try1", "data"],
    ["Evaluation", "try1", "models"], ["ML", "try1", "models"],
    ["ML", "try2", "data"], ["Evaluation", "try2", "data"],
    ["ML", "try2", "models"], ["Evaluation", "try2", "models"] ]

/-- An empty filesystem, used to evaluate the theorems at concrete inputs. -/
def fsEmpty : FS := { files := fun _ => none, dirs := fun _ => false }

/-- A sample remote repository: the four mapped sub-folders exist, and
`data_vocab` holds one file `f.txt`. -/
def remoteSample : FS :=
  { files := fun q => if q = ["data_vocab", "f.txt"] then some "hello" else none,
    dirs := fun q =>
      (q == ([] : Path)) || (q == ["data_vocab"]) || (q == ["models_vocab"]) ||
      (q == ["data _enronsent"]) || (q == ["models_enronsent"]) }

/-- A sample filesystem in which the clone directory exists as a regular file. -/
def fsTmpFile : FS :=
  { files := fun q => if q = ["tmp_hf_repo"] then some "junk" else none,
    dirs := fun _ => false }

/-- A sample state of the filesystem after a fetch (project root `[]`): the
clone holds the four sub-folders and one file, and one destination already
holds an unrelated file. -/
def fsMid : FS :=
  { files := fun q =>
      if q = ["tmp_hf_repo", "data_vocab", "f.txt"] then some "hello"
      else if q = ["Evaluation", "try1", "data", "old.txt"] then some "keep"
      else none,
    dirs := fun q =>
      (q == ["tmp_hf_repo"]) || (q == ["tmp_hf_repo", "data_vocab"]) ||
      (q == ["tmp_hf_repo", "models_vocab"]) ||
      (q == ["tmp_hf_repo", "data _enronsent"]) ||
      (q == ["tmp_hf_repo", "models_enronsent"]) ||
      (q == ["Evaluation", "try1", "data"]) }

/-! ### Path lemmas -/

theorem stripPre_append (p u : Path) : stripPre p (p ++ u) = some u := by
  induction p with
  | nil => rfl
  | cons a p ih => simp [stripPre, ih]

theorem stripPre_self (p : Path) : stripPre p p = some [] := by
  have h := stripPre_append p []
  simpa using h

theorem stripPre_cancel (p l1 l2 : Path) :
    stripPre (p ++ l1) (p ++ l2) = stripPre l1 l2 := by
  induction p with
  | nil => rfl
  | cons a p ih => simp [stripPre, ih]

theorem stripPre_eq_some : ∀ {p q r : Path}, stripPre p q = some r → q = p ++ r := by
  intro p
  induction p with
  | nil =>
    intro q r h
    simp [stripPre] at h
    simp [h]
  | cons a p ih =>
    intro q r h
    cases q with
    | nil => simp [stripPre] at h
    | cons b q =>
      by_cases hab : a = b
      · subst hab
        rw [stripPre, if_pos rfl] at h
        have hq := ih h
        simp [hq]
      · rw [stripPre, if_neg hab] at h
        exact absurd h (by simp)

theorem stripPre_ne (a b : String) (h : ¬ a = b) (u v : Path) :
    stripPre (a :: u) (b :: v) = none := by
  simp [stripPre, h]

theorem stripPre_length_ne {t t' : Path} (hlen : t.length = t'.length)
    (hne : t ≠ t') (u : Path) : stripPre t' (t ++ u) = none := by
  cases hsp : stripPre t' (t ++ u) with
  | none => rfl
  | some r =>
    exfalso
    have heq : t ++ u = t' ++ r := stripPre_eq_some hsp
    exact hne (List.append_inj_left heq hlen)

theorem isAnc_self (p : Path) : isAnc p p = true := by
  simp [isAnc, stripPre_self]

/-! ### Pointwise behaviour of the filesystem operations -/

theorem rmtree_files_below (fs : FS) (p u : Path) :
    (rmtree fs p).files (p ++ u) = none := by
  simp [rmtree, stripPre_append]

theorem rmtree_files_off (fs : FS) (p q : Path) (h : stripPre p q = none) :
    (rmtree fs p).files q = fs.files q := by
  simp [rmtree, h]

theorem rmtree_dirs_off (fs : FS) (p q : Path) (h : stripPre p q = none) :
    (rmtree fs p).dirs q = fs.dirs q := by
  simp [rmtree, h]

theorem mkdir_parents_files (fs : FS) (d q : Path) :
    (mkdir_parents fs d).files q = fs.files q := rfl

theorem mkdir_parents_dirs (fs : FS) (d q : Path) :
    (mkdir_parents fs d).dirs q = (fs.dirs q || isAnc q d) := rfl

theorem copytree_files_off (fs : FS) (src dest q : Path)
    (h : stripPre dest q = none) : (copytree fs src dest).files q = fs.files q := by
  simp [copytree, h]

theorem copytree_files_at (fs : FS) (src dest q rel : Path)
    (h : stripPre dest q = some rel) :
    (copytree fs src dest).files q =
      (match fs.files (src ++ rel) with
       | some c => some c
       | none => fs.files q) := by
  simp [copytree, h]

theorem copytree_dirs_off (fs : FS) (src dest q : Path)
    (h : stripPre dest q = none) : (copytree fs src dest).dirs q = fs.dirs q := by
  simp [copytree, h]

theorem copytree_dirs_at (fs : FS) (src dest q rel : Path)
    (h : stripPre dest q = some rel) :
    (copytree fs src dest).dirs q = (fs.dirs q || fs.dirs (src ++ rel)) := by
  simp [copytree, h]

theorem copytree_dirs_mono (fs : FS) (src dest q : Path)
    (h : fs.dirs q = true) : (copytree fs src dest).dirs q = true := by
  cases hs : stripPre dest q with
  | none => simp [copytree, hs, h]
  | some rel => simp [copytree, hs, h]

theorem mkdir_parents_dirs_mono (fs : FS) (d q : Path)
    (h : fs.dirs q = true) : (mkdir_parents fs d).dirs q = true := by
  simp [mkdir_parents, h]

theorem cloneInto_files_below (fs : FS) (tmp : Path) (r : FS) (u : Path) :
    (cloneInto fs tmp r).files (tmp ++ u) =
      (match r.files u with
       | some c => some c
       | none => fs.files (tmp ++ u)) := by
  simp [cloneInto, stripPre_append]

theorem cloneInto_files_off (fs : FS) (tmp : Path) (r : FS) (q : Path)
    (h : stripPre tmp q = none) : (cloneInto fs tmp r).files q = fs.files q := by
  simp [cloneInto, h]

theorem cloneInto_dirs_off (fs : FS) (tmp : Path) (r : FS) (q : Path)
    (h : stripPre tmp q = none) : (cloneInto fs tmp r).dirs q = fs.dirs q := by
  simp [cloneInto, h]

theorem cloneInto_dirs_self (fs : FS) (tmp : Path) (r : FS) :
    (cloneInto fs tmp r).dirs tmp = true := by
  simp [cloneInto, stripPre_self]

theorem cloneInto_dirs_below (fs : FS) (tmp : Path) (r : FS) (a : String) (u : Path) :
    (cloneInto fs tmp r).dirs (tmp ++ a :: u) =
      (fs.dirs (tmp ++ a :: u) || r.dirs (a :: u)) := by
  simp only [cloneInto]
  rw [stripPre_append]

/-! ### Frame and monotonicity lemmas for the copy loop -/

theorem copyEntry_files_frame (src q : Path) :
    ∀ (ds : List (Path × String)) (fs : FS),
      (∀ bs ∈ ds, stripPre (destOf bs) q = none) →
      (copyEntry src fs ds).files q = fs.files q := by
  intro ds
  induction ds with
  | nil => intro fs _; rfl
  | cons bs rest ih =>
    intro fs h
    obtain ⟨b, s⟩ := bs
    have hhd : stripPre (b ++ [s]) q = none := h _ (List.mem_cons_self _ _)
    have htl : ∀ bs ∈ rest, stripPre (destOf bs) q = none :=
      fun bs hbs => h bs (List.mem_cons_of_mem _ hbs)
    calc (copyEntry src fs ((b, s) :: rest)).files q
        = (copytree (mkdir_parents fs (b ++ [s])) src (b ++ [s])).files q :=
          ih _ htl
      _ = fs.files q := by
          rw [copytree_files_off _ _ _ _ hhd, mkdir_parents_files]

theorem copyEntry_dirs_frame (src q : Path) :
    ∀ (ds : List (Path × String)) (fs : FS),
      (∀ bs ∈ ds, stripPre (destOf bs) q = none ∧ isAnc q (destOf bs) = false) →
      (copyEntry src fs ds).dirs q = fs.dirs q := by
  intro ds
  induction ds with
  | nil => intro fs _; rfl
  | cons bs rest ih =>
    intro fs h
    obtain ⟨b, s⟩ := bs
    have hhd : stripPre (b ++ [s]) q = none ∧ isAnc q (b ++ [s]) = false :=
      h _ (List.mem_cons_self _ _)
    have htl : ∀ bs ∈ rest, stripPre (destOf bs) q = none ∧ isAnc q (destOf bs) = false :=
      fun bs hbs => h bs (List.mem_cons_of_mem _ hbs)
    calc (copyEntry src fs ((b, s) :: rest)).dirs q
        = (copytree (mkdir_parents fs (b ++ [s])) src (b ++ [s])).dirs q :=
          ih _ htl
      _ = fs.dirs q := by
          rw [copytree_dirs_off _ _ _ _ hhd.1, mkdir_parents_dirs]
          simp [hhd.2]

theorem copyEntry_dirs_mono (src q : Path) :
    ∀ (ds : List (Path × String)) (fs : FS),
      fs.dirs q = true → (copyEntry src fs ds).dirs q = true := by
  intro ds
  induction ds with
  | nil => intro fs h; exact h
  | cons bs rest ih =>
    intro fs h
    obtain ⟨b, s⟩ := bs
    exact ih _ (copytree_dirs_mono _ _ _ _ (mkdir_parents_dirs_mono _ _ _ h))

theorem copyLoop_files_frame (root q : Path) :
    ∀ (l : List (String × List (Path × String))) (fs : FS),
      (∀ e ∈ l, ∀ bs ∈ e.2, stripPre (destOf bs) q = none) →
      (runState (copyLoop root fs l)).files q = fs.files q := by
  intro l
  induction l with
  | nil => intro fs _; rfl
  | cons e rest ih =>
    intro fs h
    obtain ⟨k, ds⟩ := e
    by_cases hd : isDir fs (tmp_repo root ++ [k]) = true
    · have hstep : copyLoop root fs ((k, ds) :: rest) =
          copyLoop root (copyEntry (tmp_repo root ++ [k]) fs ds) rest := by
        simp [copyLoop, hd]
      rw [hstep, ih _ (fun e he bs hbs => h e (List.mem_cons_of_mem _ he) bs hbs)]
      exact copyEntry_files_frame _ _ _ _
        (fun bs hbs => h (k, ds) (List.mem_cons_self _ _) bs hbs)
    · have hstep : copyLoop root fs ((k, ds) :: rest) =
          .error (.missingSource (tmp_repo root ++ [k]), fs) := by
        simp [copyLoop, hd]
      rw [hstep]
      rfl

theorem copyLoop_dirs_frame (root q : Path) :
    ∀ (l : List (String × List (Path × String))) (fs : FS),
      (∀ e ∈ l, ∀ bs ∈ e.2, stripPre (destOf bs) q = none ∧ isAnc q (destOf bs) = false) →
      (runState (copyLoop root fs l)).dirs q = fs.dirs q := by
  intro l
  induction l with
  | nil => intro fs _; rfl
  | cons e rest ih =>
    intro fs h
    obtain ⟨k, ds⟩ := e
    by_cases hd : isDir fs (tmp_repo root ++ [k]) = true
    · have hstep : copyLoop root fs ((k, ds) :: rest) =
          copyLoop root (copyEntry (tmp_repo root ++ [k]) fs ds) rest := by
        simp [copyLoop, hd]
      rw [hstep, ih _ (fun e he bs hbs => h e (List.mem_cons_of_mem _ he) bs hbs)]
      exact copyEntry_dirs_frame _ _ _ _
        (fun bs hbs => h (k, ds) (List.mem_cons_self _ _) bs hbs)
    · have hstep : copyLoop root fs ((k, ds) :: rest) =
          .error (.missingSource (tmp_repo root ++ [k]), fs) := by
        simp [copyLoop, hd]
      rw [hstep]
      rfl

theorem copyLoop_dirs_mono (root q : Path) :
    ∀ (l : List (String × List (Path × String))) (fs : FS),
      fs.dirs q = true → (runState (copyLoop root fs l)).dirs q = true := by
  intro l
  induction l with
  | nil => intro fs h; exact h
  | cons e rest ih =>
    intro fs h
    obtain ⟨k, ds⟩ := e
    by_cases hd : isDir fs (tmp_repo root ++ [k]) = true
    · have hstep : copyLoop root fs ((k, ds) :: rest) =
          copyLoop root (copyEntry (tmp_repo root ++ [k]) fs ds) rest := by
        simp [copyLoop, hd]
      rw [hstep]
      exact ih _ (copyEntry_dirs_mono _ _ _ _ h)
    · have hstep : copyLoop root fs ((k, ds) :: rest) =
          .error (.missingSource (tmp_repo root ++ [k]), fs) := by
        simp [copyLoop, hd]
      rw [hstep]
      exact h

/-! ### Sequencing lemmas for the copy loop -/

theorem runErr_none_ok {x : Except (Err × FS) FS} (h : runErr x = none) :
    x = .ok (runState x) := by
  cases x with
  | ok fs => rfl
  | error e => simp [runErr] at h

theorem copyLoop_append (root : Path) :
    ∀ (l1 l2 : List (String × List (Path × String))) (fs : FS),
      copyLoop root fs (l1 ++ l2) =
        (match copyLoop root fs l1 with
         | .ok f => copyLoop root f l2
         | .error e => .error e) := by
  intro l1
  induction l1 with
  | nil => intro l2 fs; rfl
  | cons e rest ih =>
    intro l2 fs
    obtain ⟨k, ds⟩ := e
    by_cases hd : isDir fs (tmp_repo root ++ [k]) = true
    · simp [copyLoop, hd, ih]
    · simp [copyLoop, hd]

theorem copyLoop_error_decomp (root : Path) :
    ∀ (l : List (String × List (Path × String))) (fs : FS) (p : Path) (fsA : FS),
      copyLoop root fs l = .error (.missingSource p, fsA) →
      ∃ l1 k ds l2, l = l1 ++ (k, ds) :: l2 ∧ p = tmp_repo root ++ [k] ∧
        copyLoop root fs l1 = .ok fsA ∧ isDir fsA p = false := by
  intro l
  induction l with
  | nil => intro fs p fsA h; simp [copyLoop] at h
  | cons e rest ih =>
    intro fs p fsA h
    obtain ⟨k, ds⟩ := e
    by_cases hd : isDir fs (tmp_repo root ++ [k]) = true
    · rw [show copyLoop root fs ((k, ds) :: rest) =
          copyLoop root (copyEntry (tmp_repo root ++ [k]) fs ds) rest by
            simp [copyLoop, hd]] at h
      obtain ⟨l1, k', ds', l2, hl, hp, hok, hnd⟩ := ih _ _ _ h
      refine ⟨(k, ds) :: l1, k', ds', l2, by rw [hl]; rfl, hp, ?_, hnd⟩
      simp [copyLoop, hd, hok]
    · rw [show copyLoop root fs ((k, ds) :: rest) =
          .error (.missingSource (tmp_repo root ++ [k]), fs) by
            simp [copyLoop, hd]] at h
      have h1 : Err.missingSource (tmp_repo root ++ [k]) = Err.missingSource p ∧ fs = fsA := by
        have := h
        injection this with h2
        exact ⟨congrArg Prod.fst h2, congrArg Prod.snd h2⟩
      obtain ⟨he, hfs⟩ := h1
      injection he with hpk
      refine ⟨[], k, ds, rest, rfl, hpk.symm, ?_, ?_⟩
      · rw [hfs]; rfl
      · rw [← hfs, ← hpk]
        simp [hd]

/-! ### Correctness of one mapping entry -/

theorem copyEntry_spec (src : Path) :
    ∀ (ds : List (Path × String)) (fs : FS),
      (∀ bs ∈ ds, ∀ u, stripPre (destOf bs) (src ++ u) = none) →
      (∀ bs ∈ ds, ∀ bs' ∈ ds, destOf bs ≠ destOf bs' →
        ∀ u, stripPre (destOf bs') (destOf bs ++ u) = none) →
      (ds.map destOf).Nodup →
      ∀ bs ∈ ds,
        (copyEntry src fs ds).dirs (destOf bs) = true ∧
        (∀ q, isAnc q (destOf bs) = true → (copyEntry src fs ds).dirs q = true) ∧
        (∀ rel c, fs.files (src ++ rel) = some c →
          (copyEntry src fs ds).files (destOf bs ++ rel) = some c) ∧
        (∀ rel, fs.dirs (src ++ rel) = true →
          (copyEntry src fs ds).dirs (destOf bs ++ rel) = true) ∧
        (∀ rel, fs.files (src ++ rel) = none →
          (copyEntry src fs ds).files (destOf bs ++ rel) = fs.files (destOf bs ++ rel)) := by
  intro ds
  induction ds with
  | nil => intro fs _ _ _ bs hbs; simp at hbs
  | cons hd rest ih =>
    obtain ⟨b, s⟩ := hd
    intro fs Ha Hb Hnd bs hbs
    rw [List.map_cons, List.nodup_cons] at Hnd
    have hne_hd : ∀ bs' ∈ rest, destOf (b, s) ≠ destOf bs' := by
      intro bs' hbs' he
      exact Hnd.1 (he ▸ List.mem_map_of_mem destOf hbs')
    have F1 : ∀ rel, (copytree (mkdir_parents fs (b ++ [s])) src (b ++ [s])).files (src ++ rel) =
        fs.files (src ++ rel) := by
      intro rel
      have hoff : stripPre (b ++ [s]) (src ++ rel) = none :=
        Ha (b, s) (List.mem_cons_self _ _) rel
      rw [copytree_files_off _ _ _ _ hoff, mkdir_parents_files]
    have F2 : ∀ q, fs.dirs q = true →
        (copytree (mkdir_parents fs (b ++ [s])) src (b ++ [s])).dirs q = true :=
      fun q h => copytree_dirs_mono _ _ _ _ (mkdir_parents_dirs_mono _ _ _ h)
    have F3a : (copytree (mkdir_parents fs (b ++ [s])) src (b ++ [s])).dirs (b ++ [s]) = true := by
      rw [copytree_dirs_at _ _ _ _ _ (stripPre_self (b ++ [s]))]
      simp [mkdir_parents_dirs, isAnc_self]
    have F3b : ∀ q, isAnc q (b ++ [s]) = true →
        (copytree (mkdir_parents fs (b ++ [s])) src (b ++ [s])).dirs q = true := by
      intro q h
      apply copytree_dirs_mono
      simp [mkdir_parents_dirs, h]
    have F3c : ∀ rel c, fs.files (src ++ rel) = some c →
        (copytree (mkdir_parents fs (b ++ [s])) src (b ++ [s])).files ((b ++ [s]) ++ rel) =
          some c := by
      intro rel c h
      rw [copytree_files_at _ _ _ _ _ (stripPre_append (b ++ [s]) rel)]
      simp [mkdir_parents_files, h]
    have F3d : ∀ rel, fs.dirs (src ++ rel) = true →
        (copytree (mkdir_parents fs (b ++ [s])) src (b ++ [s])).dirs ((b ++ [s]) ++ rel) =
          true := by
      intro rel h
      rw [copytree_dirs_at _ _ _ _ _ (stripPre_append (b ++ [s]) rel)]
      simp [mkdir_parents_dirs, h]
    have F3e : ∀ rel, fs.files (src ++ rel) = none →
        (copytree (mkdir_parents fs (b ++ [s])) src (b ++ [s])).files ((b ++ [s]) ++ rel) =
          fs.files ((b ++ [s]) ++ rel) := by
      intro rel h
      rw [copytree_files_at _ _ _ _ _ (stripPre_append (b ++ [s]) rel)]
      simp [mkdir_parents_files, h]
    have Fr2 : ∀ bs' ∈ rest, ∀ rel,
        (copytree (mkdir_parents fs (b ++ [s])) src (b ++ [s])).files (destOf bs' ++ rel) =
          fs.files (destOf bs' ++ rel) := by
      intro bs' hbs' rel
      have hcond : stripPre (b ++ [s]) (destOf bs' ++ rel) = none :=
        Hb bs' (List.mem_cons_of_mem _ hbs') (b, s) (List.mem_cons_self _ _)
          (fun he => hne_hd bs' hbs' he.symm) rel
      rw [copytree_files_off _ _ _ _ hcond, mkdir_parents_files]
    rcases List.mem_cons.mp hbs with rfl | hbs'
    · -- the head destination
      have Frame : ∀ rel,
          (copyEntry src (copytree (mkdir_parents fs (b ++ [s])) src (b ++ [s])) rest).files
              ((b ++ [s]) ++ rel) =
            (copytree (mkdir_parents fs (b ++ [s])) src (b ++ [s])).files ((b ++ [s]) ++ rel) := by
        intro rel
        apply copyEntry_files_frame
        intro bs' hbs'
        exact Hb (b, s) (List.mem_cons_self _ _) bs' (List.mem_cons_of_mem _ hbs')
          (hne_hd bs' hbs') rel
      refine ⟨?_, ?_, ?_, ?_, ?_⟩
      · show (copyEntry src (copytree (mkdir_parents fs (b ++ [s])) src (b ++ [s])) rest).dirs
            (b ++ [s]) = true
        exact copyEntry_dirs_mono _ _ _ _ F3a
      · intro q hq
        show (copyEntry src (copytree (mkdir_parents fs (b ++ [s])) src (b ++ [s])) rest).dirs
            q = true
        exact copyEntry_dirs_mono _ _ _ _ (F3b q hq)
      · intro rel c h
        show (copyEntry src (copytree (mkdir_parents fs (b ++ [s])) src (b ++ [s])) rest).files
            ((b ++ [s]) ++ rel) = some c
        rw [Frame rel]
        exact F3c rel c h
      · intro rel h
        show (copyEntry src (copytree (mkdir_parents fs (b ++ [s])) src (b ++ [s])) rest).dirs
            ((b ++ [s]) ++ rel) = true
        exact copyEntry_dirs_mono _ _ _ _ (F3d rel h)
      · intro rel h
        show (copyEntry src (copytree (mkdir_parents fs (b ++ [s])) src (b ++ [s])) rest).files
            ((b ++ [s]) ++ rel) = fs.files ((b ++ [s]) ++ rel)
        rw [Frame rel]
        exact F3e rel h
    · -- a destination of the tail
      have Ha' : ∀ x ∈ rest, ∀ u, stripPre (destOf x) (src ++ u) = none :=
        fun x hx => Ha x (List.mem_cons_of_mem _ hx)
      have Hb' : ∀ x ∈ rest, ∀ y ∈ rest, destOf x ≠ destOf y →
          ∀ u, stripPre (destOf y) (destOf x ++ u) = none :=
        fun x hx y hy => Hb x (List.mem_cons_of_mem _ hx) y (List.mem_cons_of_mem _ hy)
      obtain ⟨ca, cb, cc, cd, ce⟩ :=
        ih (copytree (mkdir_parents fs (b ++ [s])) src (b ++ [s])) Ha' Hb' Hnd.2 bs hbs'
      refine ⟨ca, cb, ?_, ?_, ?_⟩
      · intro rel c h
        exact cc rel c ((F1 rel).trans h)
      · intro rel h
        exact cd rel (F2 _ h)
      · intro rel h
        have h1 := ce rel ((F1 rel).trans h)
        exact h1.trans (Fr2 bs hbs' rel)

theorem mem_allDests :
    ∀ (l : List (String × List (Path × String))) (e : String × List (Path × String))
      (bs : Path × String), e ∈ l → bs ∈ e.2 → destOf bs ∈ allDests l := by
  intro l
  induction l with
  | nil => intro e bs he _; simp at he
  | cons hd rest ih =>
    intro e bs he hbs
    rcases List.mem_cons.mp he with rfl | he'
    · show destOf bs ∈ e.2.map destOf ++ allDests rest
      exact List.mem_append_left _ (List.mem_map_of_mem _ hbs)
    · show destOf bs ∈ hd.2.map destOf ++ allDests rest
      exact List.mem_append_right _ (ih e bs he' hbs)

/-! ### Correctness of the whole copy loop

For a copy loop that completes without error, started in a state `fs` that
agrees with a reference state `fs0` below the clone directory, every
destination directory of every entry exists afterwards (with all its
ancestors), holds a copy of every file and every sub-directory of its source
folder, and keeps its old content at every path the source does not provide.
The side conditions say that no destination reaches into the clone directory
(`H1`), no path below the clone is an ancestor of a destination (`Hp`),
distinct destinations do not overlap (`H2`), and no destination is listed
twice (`Hnd`); they all hold for the concrete `tasks` table. -/

theorem copyLoop_spec (root : Path) (fs0 : FS) :
    ∀ (l : List (String × List (Path × String))) (fs : FS),
      runErr (copyLoop root fs l) = none →
      (∀ u, fs.files (tmp_repo root ++ u) = fs0.files (tmp_repo root ++ u)) →
      (∀ u, fs.dirs (tmp_repo root ++ u) = fs0.dirs (tmp_repo root ++ u)) →
      (∀ e ∈ l, ∀ bs ∈ e.2, ∀ u, stripPre (destOf bs) (tmp_repo root ++ u) = none) →
      (∀ e ∈ l, ∀ bs ∈ e.2, ∀ u, isAnc (tmp_repo root ++ u) (destOf bs) = false) →
      (∀ e ∈ l, ∀ bs ∈ e.2, ∀ e' ∈ l, ∀ bs' ∈ e'.2, destOf bs ≠ destOf bs' →
        ∀ u, stripPre (destOf bs') (destOf bs ++ u) = none) →
      (allDests l).Nodup →
      ∀ e ∈ l, ∀ bs ∈ e.2,
        (runState (copyLoop root fs l)).dirs (destOf bs) = true ∧
        (∀ q, isAnc q (destOf bs) = true → (runState (copyLoop root fs l)).dirs q = true) ∧
        (∀ rel c, fs0.files (tmp_repo root ++ e.1 :: rel) = some c →
          (runState (copyLoop root fs l)).files (destOf bs ++ rel) = some c) ∧
        (∀ rel, fs0.dirs (tmp_repo root ++ e.1 :: rel) = true →
          (runState (copyLoop root fs l)).dirs (destOf bs ++ rel) = true) ∧
        (∀ rel, fs0.files (tmp_repo root ++ e.1 :: rel) = none →
          (runState (copyLoop root fs l)).files (destOf bs ++ rel) =
            fs.files (destOf bs ++ rel)) := by
  intro l
  induction l with
  | nil => intro fs _ _ _ _ _ _ _ e he; simp at he
  | cons hd rest ih =>
    obtain ⟨k, ds⟩ := hd
    intro fs hrun hagf hagd H1 Hp H2 Hnd e he bs hbs
    have hd0 : isDir fs (tmp_repo root ++ [k]) = true := by
      by_contra hno
      rw [show copyLoop root fs ((k, ds) :: rest) =
          Except.error (Err.missingSource (tmp_repo root ++ [k]), fs) from by
            simp [copyLoop, hno]] at hrun
      simp [runErr] at hrun
    have hstep : copyLoop root fs ((k, ds) :: rest) =
        copyLoop root (copyEntry (tmp_repo root ++ [k]) fs ds) rest := by
      simp [copyLoop, hd0]
    have hrun2 : runErr (copyLoop root (copyEntry (tmp_repo root ++ [k]) fs ds) rest) = none := by
      rw [← hstep]; exact hrun
    have assoc1 : ∀ u : Path, (tmp_repo root ++ [k]) ++ u = tmp_repo root ++ (k :: u) := by
      intro u; simp
    have Ha_e : ∀ x ∈ ds, ∀ u, stripPre (destOf x) ((tmp_repo root ++ [k]) ++ u) = none := by
      intro x hx u
      rw [assoc1 u]
      exact H1 (k, ds) (List.mem_cons_self _ _) x hx (k :: u)
    have Hb_e : ∀ x ∈ ds, ∀ y ∈ ds, destOf x ≠ destOf y →
        ∀ u, stripPre (destOf y) (destOf x ++ u) = none :=
      fun x hx y hy =>
        H2 (k, ds) (List.mem_cons_self _ _) x hx (k, ds) (List.mem_cons_self _ _) y hy
    have HndA : (ds.map destOf).Nodup ∧ (allDests rest).Nodup ∧
        (ds.map destOf).Disjoint (allDests rest) := by
      have h := Hnd
      rw [show allDests ((k, ds) :: rest) = ds.map destOf ++ allDests rest from rfl] at h
      exact List.nodup_append.mp h
    have hspec := copyEntry_spec (tmp_repo root ++ [k]) ds fs Ha_e Hb_e HndA.1
    have hagf2 : ∀ u, (copyEntry (tmp_repo root ++ [k]) fs ds).files (tmp_repo root ++ u) =
        fs0.files (tmp_repo root ++ u) := by
      intro u
      rw [copyEntry_files_frame _ _ _ _
        (fun x hx => H1 (k, ds) (List.mem_cons_self _ _) x hx u)]
      exact hagf u
    have hagd2 : ∀ u, (copyEntry (tmp_repo root ++ [k]) fs ds).dirs (tmp_repo root ++ u) =
        fs0.dirs (tmp_repo root ++ u) := by
      intro u
      rw [copyEntry_dirs_frame _ _ _ _
        (fun x hx => ⟨H1 (k, ds) (List.mem_cons_self _ _) x hx u,
          Hp (k, ds) (List.mem_cons_self _ _) x hx u⟩)]
      exact hagd u
    rcases List.mem_cons.mp he with rfl | he'
    · -- the entry being processed first
      obtain ⟨ca, cb, cc, cd, ce⟩ := hspec bs hbs
      have hne_rest : ∀ e' ∈ rest, ∀ bs' ∈ e'.2, destOf bs ≠ destOf bs' := by
        intro e' he'' bs' hbs' heq
        exact HndA.2.2 (List.mem_map_of_mem destOf hbs)
          (heq ▸ mem_allDests rest e' bs' he'' hbs')
      have hfilesrest : ∀ rel,
          (runState (copyLoop root (copyEntry (tmp_repo root ++ [k]) fs ds) rest)).files
              (destOf bs ++ rel) =
            (copyEntry (tmp_repo root ++ [k]) fs ds).files (destOf bs ++ rel) := by
        intro rel
        apply copyLoop_files_frame
        intro e' he'' bs' hbs'
        exact H2 (k, ds) (List.mem_cons_self _ _) bs hbs e' (List.mem_cons_of_mem _ he'')
          bs' hbs' (hne_rest e' he'' bs' hbs') rel
      rw [hstep]
      refine ⟨?_, ?_, ?_, ?_, ?_⟩
      · exact copyLoop_dirs_mono root _ rest _ ca
      · intro q hq
        exact copyLoop_dirs_mono root _ rest _ (cb q hq)
      · intro rel c h
        rw [hfilesrest rel]
        apply cc rel c
        rw [assoc1 rel, hagf (k :: rel)]
        exact h
      · intro rel h
        apply copyLoop_dirs_mono root _ rest _
        apply cd rel
        rw [assoc1 rel, hagd (k :: rel)]
        exact h
      · intro rel h
        rw [hfilesrest rel]
        apply ce rel
        rw [assoc1 rel, hagf (k :: rel)]
        exact h
    · -- an entry of the tail
      have H1r : ∀ x ∈ rest, ∀ y ∈ x.2, ∀ u, stripPre (destOf y) (tmp_repo root ++ u) = none :=
        fun x hx => H1 x (List.mem_cons_of_mem _ hx)
      have Hpr : ∀ x ∈ rest, ∀ y ∈ x.2, ∀ u, isAnc (tmp_repo root ++ u) (destOf y) = false :=
        fun x hx => Hp x (List.mem_cons_of_mem _ hx)
      have H2r : ∀ x ∈ rest, ∀ y ∈ x.2, ∀ x' ∈ rest, ∀ y' ∈ x'.2, destOf y ≠ destOf y' →
          ∀ u, stripPre (destOf y') (destOf y ++ u) = none :=
        fun x hx y hy x' hx' =>
          H2 x (List.mem_cons_of_mem _ hx) y hy x' (List.mem_cons_of_mem _ hx')
      obtain ⟨ca, cb, cc, cd, ce⟩ :=
        ih (copyEntry (tmp_repo root ++ [k]) fs ds) hrun2 hagf2 hagd2 H1r Hpr H2r
          HndA.2.1 e he' bs hbs
      rw [hstep]
      refine ⟨ca, cb, cc, cd, ?_⟩
      intro rel h
      rw [ce rel h]
      apply copyEntry_files_frame
      intro x hx
      have hne : destOf bs ≠ destOf x := by
        intro heq
        exact HndA.2.2 (List.mem_map_of_mem destOf hx)
          (heq ▸ mem_allDests rest e bs he' hbs)
      exact H2 e (List.mem_cons_of_mem _ he') bs hbs (k, ds) (List.mem_cons_self _ _)
        x hx hne rel

/-! ### The destinations of the concrete task table -/

theorem strip_dest_tmp_none (root : Path) (x y s : String) (h : x ≠ "tmp_hf_repo")
    (u : Path) : stripPre ((root ++ [x, y]) ++ [s]) (tmp_repo root ++ u) = none := by
  have e1 : (root ++ [x, y]) ++ [s] = root ++ [x, y, s] := by simp
  have e2 : tmp_repo root ++ u = root ++ ("tmp_hf_repo" :: u) := by simp [tmp_repo]
  rw [e1, e2, stripPre_cancel]
  exact stripPre_ne x "tmp_hf_repo" h [y, s] u

theorem isAnc_tmp_dest_false (root : Path) (x y s : String) (h : x ≠ "tmp_hf_repo")
    (u : Path) : isAnc (tmp_repo root ++ u) ((root ++ [x, y]) ++ [s]) = false := by
  show (stripPre (tmp_repo root ++ u) ((root ++ [x, y]) ++ [s])).isSome = false
  have e1 : (root ++ [x, y]) ++ [s] = root ++ [x, y, s] := by simp
  have e2 : tmp_repo root ++ u = root ++ ("tmp_hf_repo" :: u) := by simp [tmp_repo]
  rw [e1, e2, stripPre_cancel, stripPre_ne "tmp_hf_repo" x (fun hh => h hh.symm) u [y, s]]
  rfl

theorem strip_tmp_dest_none (root : Path) (x y s : String) (h : x ≠ "tmp_hf_repo")
    (u : Path) : stripPre (tmp_repo root) (((root ++ [x, y]) ++ [s]) ++ u) = none := by
  have e1 : ((root ++ [x, y]) ++ [s]) ++ u = root ++ (x :: y :: s :: u) := by simp
  have e2 : tmp_repo root = root ++ ["tmp_hf_repo"] := rfl
  rw [e1, e2, stripPre_cancel]
  exact stripPre_ne "tmp_hf_repo" x (fun hh => h hh.symm) [] (y :: s :: u)

theorem strip_dest_dest_none (root : Path) (x y s x' y' s' : String)
    (h : ¬(x = x' ∧ y = y' ∧ s = s')) (u : Path) :
    stripPre ((root ++ [x', y']) ++ [s']) (((root ++ [x, y]) ++ [s]) ++ u) = none := by
  have e1 : ((root ++ [x, y]) ++ [s]) ++ u = root ++ ([x, y, s] ++ u) := by simp
  have e2 : (root ++ [x', y']) ++ [s'] = root ++ [x', y', s'] := by simp
  rw [e1, e2, stripPre_cancel]
  refine @stripPre_length_ne [x, y, s] [x', y', s'] rfl ?_ u
  intro heq
  simp at heq
  exact h heq

theorem tasks_strip_tmp (root : Path) :
    ∀ e ∈ tasks root, ∀ bs ∈ e.2, ∀ u, stripPre (destOf bs) (tmp_repo root ++ u) = none := by
  intro e he bs hbs u
  simp only [tasks, List.mem_cons, List.not_mem_nil, or_false] at he
  rcases he with rfl | rfl | rfl | rfl <;>
    simp only [List.mem_cons, List.not_mem_nil, or_false] at hbs <;>
    rcases hbs with rfl | rfl <;>
    exact strip_dest_tmp_none root _ _ _ (by decide) u

theorem tasks_anc_tmp (root : Path) :
    ∀ e ∈ tasks root, ∀ bs ∈ e.2, ∀ u, isAnc (tmp_repo root ++ u) (destOf bs) = false := by
  intro e he bs hbs u
  simp only [tasks, List.mem_cons, List.not_mem_nil, or_false] at he
  rcases he with rfl | rfl | rfl | rfl <;>
    simp only [List.mem_cons, List.not_mem_nil, or_false] at hbs <;>
    rcases hbs with rfl | rfl <;>
    exact isAnc_tmp_dest_false root _ _ _ (by decide) u

theorem tasks_tmp_off_dest (root : Path) :
    ∀ e ∈ tasks root, ∀ bs ∈ e.2, ∀ u, stripPre (tmp_repo root) (destOf bs ++ u) = none := by
  intro e he bs hbs u
  simp only [tasks, List.mem_cons, List.not_mem_nil, or_false] at he
  rcases he with rfl | rfl | rfl | rfl <;>
    simp only [List.mem_cons, List.not_mem_nil, or_false] at hbs <;>
    rcases hbs with rfl | rfl <;>
    exact strip_tmp_dest_none root _ _ _ (by decide) u

theorem tasks_dest_disjoint (root : Path) :
    ∀ e ∈ tasks root, ∀ bs ∈ e.2, ∀ e' ∈ tasks root, ∀ bs' ∈ e'.2,
      destOf bs ≠ destOf bs' → ∀ u, stripPre (destOf bs') (destOf bs ++ u) = none := by
  intro e he bs hbs e' he' bs' hbs' hne u
  simp only [tasks, List.mem_cons, List.not_mem_nil, or_false] at he he'
  rcases he with rfl | rfl | rfl | rfl <;>
    rcases he' with rfl | rfl | rfl | rfl <;>
    simp only [List.mem_cons, List.not_mem_nil, or_false] at hbs hbs' <;>
    rcases hbs with rfl | rfl <;>
    rcases hbs' with rfl | rfl <;>
    dsimp only [destOf] at hne ⊢ <;>
    first
    | exact absurd rfl hne
    | exact strip_dest_dest_none root _ _ _ _ _ _ (by decide) u

theorem allDests_tasks (root : Path) :
    allDests (tasks root) = destTriples.map (fun t => root ++ t) := by
  simp [allDests, tasks, destOf, destTriples, List.append_assoc]

theorem tasks_nodup (root : Path) : (allDests (tasks root)).Nodup := by
  rw [allDests_tasks]
  exact List.Nodup.map (fun a b hab => List.append_cancel_left hab) (by decide)

/-! ### Outcome helpers -/

theorem runState_ok (fs : FS) : runState (.ok fs) = fs := rfl

theorem runState_error (e : Err) (fs : FS) : runState (.error (e, fs)) = fs := rfl

theorem runErr_ok (fs : FS) : runErr (.ok fs) = none := rfl

theorem runErr_error (e : Err) (fs : FS) : runErr (.error (e, fs)) = some e := rfl

/-! ### Behaviour of the fetch step -/

theorem fetchStep_of_isDir (root : Path) (r fs : FS)
    (h : isDir fs (tmp_repo root) = true) :
    fetchStep root true r fs =
      .ok (cloneInto (rmtree fs (tmp_repo root)) (tmp_repo root) r) := by
  have hh : fs.dirs (tmp_repo root) = true := h
  have hex : pexists fs (tmp_repo root) = true := by simp [pexists, hh]
  simp [fetchStep, hex, rmtreeE, h]

theorem fetchStep_not_exists (root : Path) (r fs : FS)
    (h : pexists fs (tmp_repo root) = false) :
    fetchStep root true r fs = .ok (cloneInto fs (tmp_repo root) r) := by
  simp [fetchStep, h]

theorem fetchStep_ok_cases (root : Path) (r fs : FS)
    (h : runErr (fetchStep root true r fs) = none) :
    (fetchStep root true r fs = .ok (cloneInto fs (tmp_repo root) r)) ∨
    (isDir fs (tmp_repo root) = true ∧
      fetchStep root true r fs =
        .ok (cloneInto (rmtree fs (tmp_repo root)) (tmp_repo root) r)) := by
  by_cases hex : pexists fs (tmp_repo root) = true
  · by_cases hdir : isDir fs (tmp_repo root) = true
    · exact Or.inr ⟨hdir, fetchStep_of_isDir root r fs hdir⟩
    · exfalso
      rw [show fetchStep root true r fs =
          Except.error (Err.notADirectory (tmp_repo root), fs) from by
            simp [fetchStep, hex, rmtreeE, hdir]] at h
      simp [runErr] at h
  · have hex' : pexists fs (tmp_repo root) = false := by
      cases hcase : pexists fs (tmp_repo root)
      · rfl
      · exact absurd hcase hex
    exact Or.inl (fetchStep_not_exists root r fs hex')

theorem fetchStep_frame_files (root : Path) (r fs : FS) (q : Path)
    (hok : runErr (fetchStep root true r fs) = none)
    (hq : stripPre (tmp_repo root) q = none) :
    (runState (fetchStep root true r fs)).files q = fs.files q := by
  rcases fetchStep_ok_cases root r fs hok with he | ⟨_, he⟩
  · rw [he, runState_ok]
    exact cloneInto_files_off _ _ _ _ hq
  · rw [he, runState_ok]
    rw [cloneInto_files_off _ _ _ _ hq]
    exact rmtree_files_off _ _ _ hq

theorem fetchStep_dirs_tmp (root : Path) (r fs : FS)
    (hok : runErr (fetchStep root true r fs) = none) :
    (runState (fetchStep root true r fs)).dirs (tmp_repo root) = true := by
  rcases fetchStep_ok_cases root r fs hok with he | ⟨_, he⟩ <;>
    rw [he, runState_ok] <;> exact cloneInto_dirs_self _ _ _

theorem fetchStep_files_clean (root : Path) (r fs : FS)
    (hdir : isDir fs (tmp_repo root) = true) (u : Path) :
    (runState (fetchStep root true r fs)).files (tmp_repo root ++ u) = r.files u := by
  rw [fetchStep_of_isDir root r fs hdir, runState_ok, cloneInto_files_below]
  cases hr : r.files u <;> simp [hr, rmtree_files_below]

theorem fetchStep_files_overlay_some (root : Path) (r fs : FS) (u : Path) (c : String)
    (hok : runErr (fetchStep root true r fs) = none) (hc : r.files u = some c) :
    (runState (fetchStep root true r fs)).files (tmp_repo root ++ u) = some c := by
  rcases fetchStep_ok_cases root r fs hok with he | ⟨_, he⟩ <;>
    rw [he, runState_ok, cloneInto_files_below] <;> simp [hc]

theorem run_of_fetch (root : Path) (b : Bool) (r fs fs1 : FS)
    (h : fetchStep root b r fs = .ok fs1) :
    run root b r fs = copyLoop root fs1 (tasks root) := by
  simp [run, h]

theorem run_fetch_ok (root : Path) (b : Bool) (r fs : FS)
    (h : runErr (run root b r fs) = none) :
    runErr (fetchStep root b r fs) = none := by
  cases hfe : fetchStep root b r fs with
  | error e1 =>
    obtain ⟨ea, eb⟩ := e1
    rw [show run root b r fs = .error (ea, eb) from by simp [run, hfe]] at h
    simp [runErr] at h
  | ok fs1 => rfl

/-! ### The claims -/

/-- C5: the static mapping table has exactly the four keys `data_vocab`,
`models_vocab`, `data _enronsent` (with the embedded space) and
`models_enronsent`, in that order, and each maps to exactly the two
destination directories of the spec's filesystem layout, in the listed
order; the table depends on nothing but the project root. -/
theorem tasks_table_exact (root : Path) :
    (tasks root).map Prod.fst =
      ["data_vocab", "models_vocab", "data _enronsent", "models_enronsent"] ∧
    (tasks root).map (fun e => e.2.map destOf) =
      [ [root ++ ["Evaluation", "try1", "data"], root ++ ["ML", "try1", "data"]],
        [root ++ ["Evaluation", "try1", "models"], root ++ ["ML", "try1", "models"]],
        [root ++ ["ML", "try2", "data"], root ++ ["Evaluation", "try2", "data"]],
        [root ++ ["ML", "try2", "models"], root ++ ["Evaluation", "try2", "models"]] ] := by
  constructor
  · simp [tasks]
  · simp [tasks, destOf, List.append_assoc]

/-- C6: for an absolute script location (as Python guarantees for `__file__`),
the resolver returns an absolute project root, and the temporary clone
directory is the fixed-name sub-directory `tmp_hf_repo` of it. -/
theorem path_resolver_spec (scriptFile : Path)
    (habs : isAbs scriptFile = true) (hlen : 2 ≤ scriptFile.length) :
    isAbs (project_root scriptFile) = true ∧
    tmp_repo (project_root scriptFile) = project_root scriptFile ++ ["tmp_hf_repo"] := by
  refine ⟨?_, rfl⟩
  cases scriptFile with
  | nil => simp at hlen
  | cons a rest =>
    have ha : a = "" := by simpa [isAbs] using habs
    subst ha
    cases rest with
    | nil => simp at hlen
    | cons b rest2 =>
      have hp : parent ("" :: b :: rest2) = "" :: (b :: rest2).dropLast := by
        rw [parent, if_neg (by simp)]
        rfl
      show isAbs (parent ("" :: b :: rest2)) = true
      rw [hp]
      simp [isAbs]

/-- C6, instance: the resolver evaluated at a concrete absolute script path. -/
theorem path_resolver_spec_witness :
    isAbs (project_root ["", "home", "setup.py"]) = true ∧
    tmp_repo (project_root ["", "home", "setup.py"]) =
      project_root ["", "home", "setup.py"] ++ ["tmp_hf_repo"] :=
  path_resolver_spec ["", "home", "setup.py"] rfl (by decide)

/-- C8: the copy phase never writes below the clone directory: whether the
loop completes or aborts, every file and directory below `tmp_hf_repo` is
exactly as the copy phase found it, and in particular the clone is left in
place. -/
theorem copy_phase_preserves_clone (root : Path) (fs : FS) (u : Path) :
    (runState (copyLoop root fs (tasks root))).files (tmp_repo root ++ u) =
      fs.files (tmp_repo root ++ u) ∧
    (runState (copyLoop root fs (tasks root))).dirs (tmp_repo root ++ u) =
      fs.dirs (tmp_repo root ++ u) := by
  constructor
  · exact copyLoop_files_frame root _ _ fs
      (fun e he bs hbs => tasks_strip_tmp root e he bs hbs u)
  · exact copyLoop_dirs_frame root _ _ fs
      (fun e he bs hbs =>
        ⟨tasks_strip_tmp root e he bs hbs u, tasks_anc_tmp root e he bs hbs u⟩)

/-- C9: if the clone directory path exists as a regular file, the stale-clone
removal step fails before any clone or copy occurs (the abort state is the
untouched input state), with an error that is neither a fetch error nor a
missing-source error. -/
theorem tmp_file_not_a_directory (root : Path) (b : Bool) (r fs : FS) (c : String)
    (hf : fs.files (tmp_repo root) = some c) (hd : fs.dirs (tmp_repo root) = false) :
    run root b r fs = .error (.notADirectory (tmp_repo root), fs) ∧
    Err.notADirectory (tmp_repo root) ≠ Err.fetchError ∧
    (∀ p, Err.notADirectory (tmp_repo root) ≠ Err.missingSource p) := by
  have hex : pexists fs (tmp_repo root) = true := by simp [pexists, hf, hd]
  have hdir : isDir fs (tmp_repo root) = false := hd
  refine ⟨?_, by simp, by intro p; simp⟩
  simp [run, fetchStep, hex, rmtreeE, hdir]

/-- C9, instance: the run aborts on a filesystem whose clone path is a file. -/
theorem tmp_file_not_a_directory_witness :
    run [] true remoteSample fsTmpFile =
      .error (.notADirectory (tmp_repo []), fsTmpFile) ∧
    Err.notADirectory (tmp_repo []) ≠ Err.fetchError ∧
    (∀ p, Err.notADirectory (tmp_repo []) ≠ Err.missingSource p) :=
  tmp_file_not_a_directory [] true remoteSample fsTmpFile "junk" rfl rfl

/-- C1: if the copy loop reaches an entry whose source folder is not an
existing directory in the clone, the whole loop fails with the
missing-source error for exactly that folder, and the abort state is the
state before the entry: no destination of that entry or of any later entry
has been created or modified. -/
theorem copy_missing_source_fail_fast (root : Path) (fs : FS)
    (l1 l2 : List (String × List (Path × String))) (k : String)
    (ds : List (Path × String))
    (hsplit : tasks root = l1 ++ (k, ds) :: l2)
    (hpre : runErr (copyLoop root fs l1) = none)
    (hmiss : isDir (runState (copyLoop root fs l1)) (tmp_repo root ++ [k]) = false) :
    copyLoop root fs (tasks root) =
      .error (.missingSource (tmp_repo root ++ [k]), runState (copyLoop root fs l1)) := by
  have hpre' := runErr_none_ok hpre
  generalize hG : runState (copyLoop root fs l1) = fsmid at hpre' hmiss ⊢
  rw [hsplit, copyLoop_append, hpre']
  simp [copyLoop, hmiss]

/-- C1, instance: with an empty clone, the loop aborts at the first entry
leaving the state untouched. -/
theorem copy_missing_source_fail_fast_witness :
    copyLoop [] fsEmpty (tasks []) =
      .error (.missingSource (tmp_repo [] ++ ["data_vocab"]),
        runState (copyLoop [] fsEmpty [])) :=
  copy_missing_source_fail_fast [] fsEmpty []
    [ ("models_vocab",
        [ (["Evaluation", "try1"], "models"), (["ML", "try1"], "models") ]),
      ("data _enronsent",
        [ (["ML", "try2"], "data"), (["Evaluation", "try2"], "data") ]),
      ("models_enronsent",
        [ (["ML", "try2"], "models"), (["Evaluation", "try2"], "models") ]) ]
    "data_vocab"
    [ (["Evaluation", "try1"], "data"), (["ML", "try1"], "data") ]
    rfl rfl rfl

/-- C10: the copy executor iterates the table in its insertion order
`data_vocab`, `models_vocab`, `data _enronsent`, `models_enronsent`; when it
aborts with a missing-source error, the failing source names one key of the
table and the abort state is exactly the result of processing the prefix of
entries before that key, so the set of destinations already written is
determined by which key's source is missing. -/
theorem iteration_order_and_abort_state (root : Path) (fs : FS) (p : Path) (fsA : FS)
    (h : copyLoop root fs (tasks root) = .error (.missingSource p, fsA)) :
    (tasks root).map Prod.fst =
      ["data_vocab", "models_vocab", "data _enronsent", "models_enronsent"] ∧
    ∃ l1 k ds l2, tasks root = l1 ++ (k, ds) :: l2 ∧ p = tmp_repo root ++ [k] ∧
      copyLoop root fs l1 = .ok fsA ∧ isDir fsA p = false := by
  exact ⟨by simp [tasks], copyLoop_error_decomp root (tasks root) fs p fsA h⟩

/-- C10, instance: the decomposition at a concrete aborting run. -/
theorem iteration_order_and_abort_state_witness :
    (tasks ([] : Path)).map Prod.fst =
      ["data_vocab", "models_vocab", "data _enronsent", "models_enronsent"] ∧
    ∃ l1 k ds l2, tasks ([] : Path) = l1 ++ (k, ds) :: l2 ∧
      tmp_repo [] ++ ["data_vocab"] = tmp_repo [] ++ [k] ∧
      copyLoop [] fsEmpty l1 = .ok fsEmpty ∧
      isDir fsEmpty (tmp_repo [] ++ ["data_vocab"]) = false :=
  iteration_order_and_abort_state [] fsEmpty (tmp_repo [] ++ ["data_vocab"]) fsEmpty rfl

/-- C2, counterexample: a filesystem state in which the clone directory path
exists (as a regular file) before the run, yet the fetcher does not delete
and re-clone it: the fetch step aborts with a non-directory error and the
stale file survives, so the claim quantified over all states in which
`tmp_hf_repo` exists is false. -/
theorem fetch_existing_tmp_file_cex :
    pexists fsTmpFile (tmp_repo []) = true ∧
    runErr (fetchStep [] true remoteSample fsTmpFile) =
      some (.notADirectory (tmp_repo [])) ∧
    (runState (fetchStep [] true remoteSample fsTmpFile)).files (tmp_repo []) =
      some "junk" :=
  ⟨rfl, rfl, rfl⟩

/-- C2, amended: for every filesystem state in which the clone directory
exists as a directory before the run, the fetcher removes it recursively and
re-clones, so after the clone step the tree below `tmp_hf_repo` holds exactly
the freshly cloned repository content: every file is the remote's file, the
clone root is a directory, and every strictly deeper directory is exactly a
remote directory — no file of a previous clone survives. -/
theorem fetch_replaces_clone_dir (root : Path) (r fs : FS)
    (h : isDir fs (tmp_repo root) = true) :
    runErr (fetchStep root true r fs) = none ∧
    (∀ u, (runState (fetchStep root true r fs)).files (tmp_repo root ++ u) = r.files u) ∧
    (runState (fetchStep root true r fs)).dirs (tmp_repo root) = true ∧
    (∀ a u, (runState (fetchStep root true r fs)).dirs (tmp_repo root ++ a :: u) =
      r.dirs (a :: u)) := by
  have he := fetchStep_of_isDir root r fs h
  refine ⟨by rw [he]; rfl, fun u => fetchStep_files_clean root r fs h u, ?_, ?_⟩
  · rw [he, runState_ok]
    exact cloneInto_dirs_self _ _ _
  · intro a u
    rw [he, runState_ok, cloneInto_dirs_below]
    have hz : (rmtree fs (tmp_repo root)).dirs (tmp_repo root ++ a :: u) = false := by
      simp [rmtree, stripPre_append]
    rw [hz, Bool.false_or]

/-- C3: after a successful run, every destination directory of the table
exists (with all its ancestor directories), holds a byte-identical copy of
every file of its cloned source sub-folder, and has a directory for every
sub-directory of the source, including empty ones. -/
theorem copy_creates_and_copies_all (root : Path) (r fs : FS)
    (hok : runErr (run root true r fs) = none)
    (e : String × List (Path × String)) (he : e ∈ tasks root)
    (bs : Path × String) (hbs : bs ∈ e.2) :
    (runState (run root true r fs)).dirs (destOf bs) = true ∧
    (∀ q, isAnc q (destOf bs) = true → (runState (run root true r fs)).dirs q = true) ∧
    (∀ rel c,
      (runState (fetchStep root true r fs)).files (tmp_repo root ++ e.1 :: rel) = some c →
      (runState (run root true r fs)).files (destOf bs ++ rel) = some c) ∧
    (∀ rel,
      (runState (fetchStep root true r fs)).dirs (tmp_repo root ++ e.1 :: rel) = true →
      (runState (run root true r fs)).dirs (destOf bs ++ rel) = true) := by
  have hfet : runErr (fetchStep root true r fs) = none := run_fetch_ok root true r fs hok
  have hrw : run root true r fs =
      copyLoop root (runState (fetchStep root true r fs)) (tasks root) :=
    run_of_fetch root true r fs _ (runErr_none_ok hfet)
  have hc : runErr (copyLoop root (runState (fetchStep root true r fs)) (tasks root)) =
      none := by rw [← hrw]; exact hok
  have h := copyLoop_spec root (runState (fetchStep root true r fs)) (tasks root)
    (runState (fetchStep root true r fs)) hc (fun _ => rfl) (fun _ => rfl)
    (tasks_strip_tmp root) (tasks_anc_tmp root) (tasks_dest_disjoint root)
    (tasks_nodup root) e he bs hbs
  refine ⟨by rw [hrw]; exact h.1, fun q hq => by rw [hrw]; exact h.2.1 q hq,
    fun rel c hx => by rw [hrw]; exact h.2.2.1 rel c hx,
    fun rel hx => by rw [hrw]; exact h.2.2.2.1 rel hx⟩

/-- C3, instance: the sample remote's file arrives at a destination. -/
theorem copy_creates_and_copies_all_witness :
    (runState (run [] true remoteSample fsEmpty)).files
        (destOf (["Evaluation", "try1"], "data") ++ ["f.txt"]) = some "hello" :=
  (copy_creates_and_copies_all [] remoteSample fsEmpty rfl
    ("data_vocab", [(["Evaluation", "try1"], "data"), (["ML", "try1"], "data")])
    (List.mem_cons_self _ _)
    (["Evaluation", "try1"], "data") (List.mem_cons_self _ _)).2.2.1 ["f.txt"] "hello" rfl

/-- C4: the copy has merge semantics: below a destination, a path with no
counterpart in the entry's source folder keeps exactly its previous file
content, a path with a counterpart is overwritten with the source's bytes,
and pre-existing directories remain. -/
theorem copy_merge_semantics (root : Path) (fs : FS)
    (hok : runErr (copyLoop root fs (tasks root)) = none)
    (e : String × List (Path × String)) (he : e ∈ tasks root)
    (bs : Path × String) (hbs : bs ∈ e.2) :
    (∀ rel, fs.files (tmp_repo root ++ e.1 :: rel) = none →
      (runState (copyLoop root fs (tasks root))).files (destOf bs ++ rel) =
        fs.files (destOf bs ++ rel)) ∧
    (∀ rel c, fs.files (tmp_repo root ++ e.1 :: rel) = some c →
      (runState (copyLoop root fs (tasks root))).files (destOf bs ++ rel) = some c) ∧
    (∀ rel, fs.dirs (destOf bs ++ rel) = true →
      (runState (copyLoop root fs (tasks root))).dirs (destOf bs ++ rel) = true) := by
  have h := copyLoop_spec root fs (tasks root) fs hok (fun _ => rfl) (fun _ => rfl)
    (tasks_strip_tmp root) (tasks_anc_tmp root) (tasks_dest_disjoint root)
    (tasks_nodup root) e he bs hbs
  exact ⟨h.2.2.2.2, h.2.2.1, fun rel hd => copyLoop_dirs_mono root _ _ fs hd⟩

/-- C4, instance: a pre-existing unrelated file in a destination survives the
run untouched. -/
theorem copy_merge_semantics_witness :
    (runState (copyLoop [] fsMid (tasks []))).files
        (destOf (["Evaluation", "try1"], "data") ++ ["old.txt"]) =
      fsMid.files (destOf (["Evaluation", "try1"], "data") ++ ["old.txt"]) :=
  (copy_merge_semantics [] fsMid rfl
    ("data_vocab", [(["Evaluation", "try1"], "data"), (["ML", "try1"], "data")])
    (List.mem_cons_self _ _)
    (["Evaluation", "try1"], "data") (List.mem_cons_self _ _)).1 ["old.txt"] rfl

/-- C7: running the tool twice against an unchanged remote is idempotent on
the mapped destinations: below every destination directory of the table, the
files after the second successful run are identical to those after the
first. -/
theorem run_idempotent_on_dests (root : Path) (r fs : FS)
    (h1 : runErr (run root true r fs) = none)
    (h2 : runErr (run root true r (runState (run root true r fs))) = none)
    (e : String × List (Path × String)) (he : e ∈ tasks root)
    (bs : Path × String) (hbs : bs ∈ e.2) :
    ∀ rel,
      (runState (run root true r (runState (run root true r fs)))).files
          (destOf bs ++ rel) =
        (runState (run root true r fs)).files (destOf bs ++ rel) := by
  intro rel
  have hf1 : runErr (fetchStep root true r fs) = none := run_fetch_ok root true r fs h1
  have hrw1 : run root true r fs =
      copyLoop root (runState (fetchStep root true r fs)) (tasks root) :=
    run_of_fetch root true r fs _ (runErr_none_ok hf1)
  have hc1 : runErr (copyLoop root (runState (fetchStep root true r fs)) (tasks root)) =
      none := by rw [← hrw1]; exact h1
  have S1 := copyLoop_spec root (runState (fetchStep root true r fs)) (tasks root)
    (runState (fetchStep root true r fs)) hc1 (fun _ => rfl) (fun _ => rfl)
    (tasks_strip_tmp root) (tasks_anc_tmp root) (tasks_dest_disjoint root)
    (tasks_nodup root) e he bs hbs
  have hAdir : isDir (runState (run root true r fs)) (tmp_repo root) = true := by
    rw [hrw1]
    exact copyLoop_dirs_mono root _ _ _ (fetchStep_dirs_tmp root r fs hf1)
  have hf2 : runErr (fetchStep root true r (runState (run root true r fs))) = none := by
    rw [fetchStep_of_isDir root r _ hAdir]
    rfl
  have hrw2 : run root true r (runState (run root true r fs)) =
      copyLoop root (runState (fetchStep root true r (runState (run root true r fs))))
        (tasks root) :=
    run_of_fetch root true r _ _ (runErr_none_ok hf2)
  have hc2 : runErr (copyLoop root
      (runState (fetchStep root true r (runState (run root true r fs)))) (tasks root)) =
      none := by rw [← hrw2]; exact h2
  have S2 := copyLoop_spec root
    (runState (fetchStep root true r (runState (run root true r fs)))) (tasks root)
    (runState (fetchStep root true r (runState (run root true r fs)))) hc2
    (fun _ => rfl) (fun _ => rfl)
    (tasks_strip_tmp root) (tasks_anc_tmp root) (tasks_dest_disjoint root)
    (tasks_nodup root) e he bs hbs
  have hclean : ∀ u,
      (runState (fetchStep root true r (runState (run root true r fs)))).files
        (tmp_repo root ++ u) = r.files u :=
    fetchStep_files_clean root r _ hAdir
  rw [hrw2]
  cases hr : r.files (e.1 :: rel) with
  | some c =>
    rw [S2.2.2.1 rel c (by rw [hclean (e.1 :: rel)]; exact hr)]
    rw [hrw1]
    exact (S1.2.2.1 rel c
      (fetchStep_files_overlay_some root r fs (e.1 :: rel) c hf1 hr)).symm
  | none =>
    rw [S2.2.2.2.2 rel (by rw [hclean (e.1 :: rel)]; exact hr)]
    exact fetchStep_frame_files root r _ _ hf2 (tasks_tmp_off_dest root e he bs hbs rel)

/-- C7, instance: a mapped file is unchanged by the second run. -/
theorem run_idempotent_on_dests_witness :
    (runState (run [] true remoteSample (runState (run [] true remoteSample fsEmpty)))).files
        (destOf (["Evaluation", "try1"], "data") ++ ["f.txt"]) =
      (runState (run [] true remoteSample fsEmpty)).files
        (destOf (["Evaluation", "try1"], "data") ++ ["f.txt"]) :=
  run_idempotent_on_dests [] remoteSample fsEmpty rfl rfl
    ("data_vocab", [(["Evaluation", "try1"], "data"), (["ML", "try1"], "data")])
    (List.mem_cons_self _ _)
    (["Evaluation", "try1"], "data") (List.mem_cons_self _ _) ["f.txt"]

/-- C2, instance: re-cloning over an existing clone directory, evaluated at a
concrete state. -/
theorem fetch_replaces_clone_dir_witness :
    runErr (fetchStep [] true remoteSample fsMid) = none ∧
    (∀ u, (runState (fetchStep [] true remoteSample fsMid)).files (tmp_repo [] ++ u) =
      remoteSample.files u) ∧
    (runState (fetchStep [] true remoteSample fsMid)).dirs (tmp_repo []) = true ∧
    (∀ a u, (runState (fetchStep [] true remoteSample fsMid)).dirs
        (tmp_repo [] ++ a :: u) = remoteSample.dirs (a :: u)) :=
  fetch_replaces_clone_dir [] remoteSample fsMid rfl

end Setup
